import Mathlib

set_option maxRecDepth 100000

/-!
Verification development for the PiGames terminal toolkit.

Shallow embedding of the core modules:
* `lib/colors.py`  — xterm-256 palette, nearest-index resolution, luminance
  contrast, and the cached color-pair allocator;
* `lib/curses_util.py` — the frame loop (`mainloop`), input draining and
  teardown, modelled as an event-trace semantics;
* `games/2048.py` — the `compress_line` merge algorithm.

Python machine state (module globals `_PAIR_CACHE`, `_NEXT_PAIR_ID`) is made
explicit as a `PairState` threaded through the operations; exceptions are
modelled with `Except`/`Option`.
-/

namespace PiGames

/-! ### lib/colors.py — named palette table (`COLOR_HEX`) -/

/-- `COLOR_HEX`: the fixed named-color table, hex values per shade,
translated verbatim from `lib/colors.py`. -/
def COLOR_HEX : List (String × List (String × String)) :=
  [ ("red",     [("dark", "#8B0000"), ("base", "#FF0000"), ("light", "#FF7F7F")]),
    ("blue",    [("dark", "#0033AA"), ("base", "#1E90FF"), ("light", "#87CEFA")]),
    ("green",   [("dark", "#006400"), ("base", "#00A000"), ("light", "#7CFC00")]),
    ("yellow",  [("dark", "#8B8000"), ("base", "#FFD400"), ("light", "#FFF27A")]),
    ("gold",    [("dark", "#B8860B"), ("base", "#DAA520"), ("light", "#FFD24D")]),
    ("brown",   [("dark", "#5A3A1A"), ("base", "#8B5A2B"), ("light", "#C6975B")]),
    ("purple",  [("dark", "#4B0082"), ("base", "#7A43B6"), ("light", "#B19CD9")]),
    ("magenta", [("dark", "#8B008B"), ("base", "#FF00FF"), ("light", "#FF77FF")]),
    ("pink",    [("dark", "#C71585"), ("base", "#FF69B4"), ("light", "#FFB6C1")]),
    ("cyan",    [("dark", "#007777"), ("base", "#00B7B7"), ("light", "#7FFFD4")]),
    ("orange",  [("dark", "#CC5500"), ("base", "#FF8C00"), ("light", "#FFB347")]),
    ("lime",    [("dark", "#2E8B57"), ("base", "#32CD32"), ("light", "#98FB98")]),
    ("gray",    [("dark", "#505050"), ("base", "#808080"), ("light", "#BDBDBD")]),
    ("black",   [("base", "#000000")]),
    ("white",   [("base", "#FFFFFF")]) ]

/-- Value of one hexadecimal digit, as Python's `int(c, 16)` computes it for
the digits actually present in `COLOR_HEX` (uppercase/lowercase/decimal). -/
def hexDigitVal (c : Char) : Nat :=
  if 48 ≤ c.toNat ∧ c.toNat ≤ 57 then c.toNat - 48
  else if 97 ≤ c.toNat ∧ c.toNat ≤ 102 then c.toNat - 87
  else if 65 ≤ c.toNat ∧ c.toNat ≤ 70 then c.toNat - 55
  else 0

/-- `_hex_to_rgb`: strip leading `#`, then parse the three two-digit
hex components (`int(h[0:2],16), int(h[2:4],16), int(h[4:6],16)`). -/
def hex_to_rgb (h : String) : Nat × Nat × Nat :=
  match h.data.dropWhile (fun c => c = '#') with
  | [a, b, c, d, e, f] =>
      (16 * hexDigitVal a + hexDigitVal b,
       16 * hexDigitVal c + hexDigitVal d,
       16 * hexDigitVal e + hexDigitVal f)
  | _ => (0, 0, 0)

/-! ### lib/colors.py — xterm-256 palette construction -/

/-- `_cube_level`: the fixed six-level component lookup `[0,95,135,175,215,255][n]`. -/
def cube_level (n : Nat) : Nat := [0, 95, 135, 175, 215, 255].getD n 0

/-- `_build_xterm256`: 16 standard ANSI entries, the 6×6×6 cube with red
varying slowest, then the 24-step grayscale ramp. -/
def build_xterm256 : List (Nat × Nat × Nat) :=
  let ansi : List (Nat × Nat × Nat) :=
    [ (0,0,0), (205,0,0), (0,205,0), (205,205,0),
      (0,0,238), (205,0,205), (0,205,205), (229,229,229),
      (127,127,127), (255,0,0), (0,255,0), (255,255,0),
      (92,92,255), (255,0,255), (0,255,255), (255,255,255) ]
  let cube : List (Nat × Nat × Nat) :=
    (List.range 6).flatMap (fun r =>
      (List.range 6).flatMap (fun g =>
        (List.range 6).map (fun b => (cube_level r, cube_level g, cube_level b))))
  let gray : List (Nat × Nat × Nat) :=
    (List.range 24).map (fun i => (8 + i * 10, 8 + i * 10, 8 + i * 10))
  ansi ++ cube ++ gray

/-- `_XTERM256`: the palette built once at module load. -/
def XTERM256 : List (Nat × Nat × Nat) := build_xterm256

/-! ### lib/colors.py — nearest palette index -/

/-- Squared Euclidean RGB distance, computed over `Int` as Python does
with its (possibly negative) differences. -/
def dist2 (r g b rr gg bb : Int) : Int :=
  (r - rr) * (r - rr) + (g - gg) * (g - gg) + (b - bb) * (b - bb)

/-- The `for i,(rr,gg,bb) in enumerate(_XTERM256)` scan of `_nearest_index`:
carries the running index `i`, best index `besti` and best distance `bestd`,
updating on strict improvement only. -/
def nearLoop (r g b : Int) : List (Nat × Nat × Nat) → Nat → Nat → Int → Nat
  | [], _, besti, _ => besti
  | (rr, gg, bb) :: rest, i, besti, bestd =>
      let d := dist2 r g b (rr : Int) (gg : Int) (bb : Int)
      if d < bestd then nearLoop r g b rest (i + 1) i d
      else nearLoop r g b rest (i + 1) besti bestd

/-- `_nearest_index`: exhaustive minimum-distance scan over the palette,
starting from `best_i, best_d = 0, 1e18`. -/
def nearest_index (r g b : Int) : Nat :=
  nearLoop r g b XTERM256 0 0 (10 ^ 18)

/-- Association-list lookup, modelling Python `dict` access on the small
string-keyed tables. -/
def alist_lookup {α β : Type} [DecidableEq α] : List (α × β) → α → Option β
  | [], _ => none
  | (k, v) :: rest, key => if key = k then some v else alist_lookup rest key

/-- `COLOR_IDX`: precomputed nearest palette index for every named
color/variant, built by mapping `_nearest_index ∘ _hex_to_rgb` over `COLOR_HEX`. -/
def COLOR_IDX : List (String × List (String × Nat)) :=
  COLOR_HEX.map (fun p =>
    (p.1, p.2.map (fun q =>
      (q.1, nearest_index ((hex_to_rgb q.2).1 : Int)
        ((hex_to_rgb q.2).2.1 : Int) ((hex_to_rgb q.2).2.2 : Int)))))

/-- Hex string registered for a name/variant (`COLOR_HEX[name][var]`);
`none` models Python's `KeyError`. -/
def lookupHex (name var : String) : Option String :=
  (alist_lookup COLOR_HEX name).bind (fun vs => alist_lookup vs var)

/-- `resolveIndex` of the spec: the `COLOR_IDX[name][var]` lookup;
`none` models Python's `KeyError`. -/
def resolveIndex (name var : String) : Option Nat :=
  (alist_lookup COLOR_IDX name).bind (fun vs => alist_lookup vs var)

/-! ### lib/colors.py — contrast foreground -/

/-- `_luminance`: `0.2126*r + 0.7152*g + 0.0722*b`, with the decimal
literals taken exactly (as rationals). -/
def luminance (r g b : Nat) : ℚ :=
  (0.2126 : ℚ) * r + (0.7152 : ℚ) * g + (0.0722 : ℚ) * b

/-- `_auto_contrast_fg`: black (index 0) on light backgrounds, white
(index 15) otherwise; `none` models the `IndexError` on an out-of-range
palette index. -/
def auto_contrast_fg (bg_idx : Nat) : Option Nat :=
  (XTERM256.get? bg_idx).map (fun t =>
    if luminance t.1 t.2.1 t.2.2 > 140 then 0 else 15)

/-! ### lib/colors.py — pair cache -/

/-- The module-global mutable state of the pair allocator:
`_PAIR_CACHE` (as an association list) and `_NEXT_PAIR_ID`. -/
structure PairState where
  cache : List ((Nat × Nat) × Nat)
  next : Nat
  deriving DecidableEq, Repr

/-- Initial allocator state: empty cache, next id 1. -/
def initPairState : PairState := ⟨[], 1⟩

/-- `_pair_for_indices`: return the cached slot id for `(fg,bg)`, or register
the pair under `_NEXT_PAIR_ID` and increment the counter.  `ceiling` is the
platform pair-slot ceiling (curses `COLOR_PAIRS`): `curses.init_pair` raises
when asked for a pair number `≥ ceiling`, and that exception propagates
before any cache mutation, so the error carries the unchanged state. -/
def pair_for_indices (ceiling : Nat) (fg_idx bg_idx : Nat) (st : PairState) :
    Except PairState (Nat × PairState) :=
  let key := (fg_idx, bg_idx)
  match alist_lookup st.cache key with
  | some pid => .ok (pid, st)
  | none =>
      if st.next < ceiling then
        .ok (st.next, ⟨st.cache ++ [(key, st.next)], st.next + 1⟩)
      else
        .error st

/-- Run a sequence of pair requests through the allocator, collecting the
returned slot ids; an allocation failure aborts the run (exception
propagation) carrying the state at the raise point. -/
def runPairs (ceiling : Nat) : List (Nat × Nat) → PairState →
    Except PairState (List Nat × PairState)
  | [], st => .ok ([], st)
  | (f, b) :: rest, st =>
      match pair_for_indices ceiling f b st with
      | .ok (pid, st1) =>
          match runPairs ceiling rest st1 with
          | .ok (pids, st2) => .ok (pid :: pids, st2)
          | .error e => .error e
      | .error e => .error e

/-! ### lib/colors.py — `get_color` -/

/-- ncurses `COLOR_PAIR(n)`: the pair number shifted into the attribute's
color field. -/
def color_pair (n : Nat) : Nat := n <<< 8

/-- ncurses `A_BOLD`. -/
def A_BOLD : Nat := 1 <<< 21

/-- ncurses `A_UNDERLINE`. -/
def A_UNDERLINE : Nat := 1 <<< 17

/-- Failure modes of `get_color`: an unknown color name/variant
(Python `KeyError`), an out-of-range palette index (`IndexError`), or
pair-slot exhaustion (`curses.error`, carrying the state at raise time). -/
inductive GcErr where
  | badName
  | badIndex
  | exhausted (st : PairState)
  deriving DecidableEq, Repr

/-- The `if fg is None ... else ...` foreground resolution of `get_color`:
auto-contrast against the background index, or look up the named color. -/
def fg_index (bg_idx : Nat) (fg : Option (String × String)) : Except GcErr Nat :=
  match fg with
  | none =>
      match auto_contrast_fg bg_idx with
      | some i => .ok i
      | none => .error .badIndex
  | some (fname, fvar) =>
      match resolveIndex fname fvar with
      | some i => .ok i
      | none => .error .badName

/-- `get_color`: resolve `bg` (and `fg`, or auto-contrast) to palette
indices, obtain the cached pair slot, and compose the attribute with the
bold/underline bits by bitwise OR. -/
def get_color (ceiling : Nat) (bg : String × String)
    (fg : Option (String × String)) (bold underline : Bool) (st : PairState) :
    Except GcErr (Nat × PairState) :=
  match resolveIndex bg.1 bg.2 with
  | none => .error .badName
  | some bg_idx =>
      match fg_index bg_idx fg with
      | .error e => .error e
      | .ok fg_idx =>
          match pair_for_indices ceiling fg_idx bg_idx st with
          | .error e => .error (.exhausted e)
          | .ok (pid, st1) =>
              let a := color_pair pid
              let a := if bold then a ||| A_BOLD else a
              let a := if underline then a ||| A_UNDERLINE else a
              .ok (a, st1)

/-! ### lib/curses_util.py — frame loop, modelled as an event trace

The terminal is abstracted to an event trace: the loop's own actions
(`sleep` pacing, a `handle_key` dispatch, an `update_draw` invocation, each
teardown step) are recorded in order.  `present` stands for a
`refresh`-style flush of the surface; it is available in the event alphabet
so that claims about flushing can be stated, and is emitted only where the
source performs one.  Buffered input is a list of key codes per frame
(`getch` pops the head and returns -1 on an empty buffer); wall-clock
durations are abstracted away, keeping only the `sleep` suspension point.
Application callbacks may raise; the `App` record says at which calls they
do, which is all the loop can observe of them. -/

/-- One observable action of the loop or teardown. -/
inductive Ev where
  | sleep
  | key (c : Int)
  | draw
  | present
  | keypadOff
  | nocbreakStep
  | echoStep
  | cursSet
  | endwin
  deriving DecidableEq, Repr

/-- Observable behaviour of the application callbacks: whether a
`handle_key(stdscr, c)` call raises, and whether the `update_draw` call of
frame `n` raises. -/
structure App where
  onKeyFails : Int → Bool
  onDrawFails : Nat → Bool

/-- `ch in (ord('q'), 27)`: the quit keys, `q` (113) and ESC (27). -/
def isQuit (c : Int) : Bool := c = 113 || c = 27

/-- Result of the inner input-draining `while` loop. -/
inductive DrainRes where
  | drained
  | quit
  | raised
  deriving DecidableEq, Repr

/-- The inner `while True: ch = stdscr.getch() ...` loop: pop buffered keys
until none remain (`getch() == -1`), returning from `mainloop` on a quit
key; every other key is dispatched to `handle_key`, whose exception (if
any) propagates. -/
def drainLoop (app : App) : List Int → List Ev × DrainRes
  | [] => ([], .drained)
  | c :: rest =>
      if isQuit c then ([], .quit)
      else if app.onKeyFails c then ([Ev.key c], .raised)
      else
        let r := drainLoop app rest
        (Ev.key c :: r.1, r.2)

/-- The `while True` frame loop body of `mainloop`, run over a finite
script of per-frame input buffers: each iteration sleeps for pacing,
drains input, then calls `update_draw` once.  Returns the trace and
whether the loop exited by a propagating callback exception. -/
def loopFrames (app : App) : Nat → List (List Int) → List Ev × Bool
  | _, [] => ([], false)
  | n, keys :: rest =>
      let d := drainLoop app keys
      match d.2 with
      | .quit => (Ev.sleep :: d.1, false)
      | .raised => (Ev.sleep :: d.1, true)
      | .drained =>
          if app.onDrawFails n then (Ev.sleep :: d.1 ++ [Ev.draw], true)
          else
            let t := loopFrames app (n + 1) rest
            (Ev.sleep :: d.1 ++ Ev.draw :: t.1, t.2)

/-- The `try:` block of `teardown`: run the four restoration steps in
order, stopping after the first one that raises (`fails i` says whether
step `i` raises; a raising step is still attempted and recorded). -/
def trySteps (fails : Nat → Bool) : List Ev → Nat → List Ev
  | [], _ => []
  | e :: rest, i => if fails i then [e] else e :: trySteps fails rest (i + 1)

/-- `teardown(stdscr)`: restoration steps inside `try`, with
`curses.endwin()` in the `finally:` block, so `endwin` is reached even when
a restoration step raises. -/
def teardown (fails : Nat → Bool) : List Ev :=
  trySteps fails [Ev.keypadOff, Ev.nocbreakStep, Ev.echoStep, Ev.cursSet] 0
    ++ [Ev.endwin]

/-- `mainloop(update_draw, handle_key, fps)`: the frame loop wrapped in
`try: ... finally: teardown(stdscr)`, so the teardown trace follows the
loop trace on every exit path.  Returns the full trace and whether the
process exits with a propagating callback exception. -/
def mainloop (app : App) (script : List (List Int)) (tdFails : Nat → Bool) :
    List Ev × Bool :=
  let t := loopFrames app 0 script
  (t.1 ++ teardown tdFails, t.2)

/-! ### games/2048.py — `compress_line` -/

/-- The merging `while i < len(xs)` loop of `compress_line`, over the
zero-free list: merge each adjacent equal pair once (consuming both),
returning the merged list and the score gained. -/
def mergeLeft : List Nat → List Nat × Nat
  | [] => ([], 0)
  | [x] => ([x], 0)
  | x :: y :: rest =>
      if x = y then
        let r := mergeLeft rest
        (x * 2 :: r.1, x * 2 + r.2)
      else
        let r := mergeLeft (y :: rest)
        (x :: r.1, r.2)

/-- Modelled from the claim's words: the list of newly merged tile values
(each merge of two equal tiles produces their sum), scanning left to right
with each tile participating in at most one merge.  Used to compare
`compress_line`'s `gained` against the claimed characterisation. -/
def mergedValuesSpec : List Nat → List Nat
  | [] => []
  | [_] => []
  | x :: y :: rest =>
      if x = y then (x + y) :: mergedValuesSpec rest
      else mergedValuesSpec (y :: rest)

/-- `compress_line(line)`: drop zeros (Python truthiness), merge once per
pair, pad with zeros back to the input length; `moved` is whether the
result differs from the input. -/
def compress_line (line : List Nat) : List Nat × Bool × Nat :=
  let xs := line.filter (fun x => x ≠ 0)
  let r := mergeLeft xs
  let out := r.1 ++ List.replicate (line.length - r.1.length) 0
  (out, decide (out ≠ line), r.2)

/-! ## Helper lemmas -/

/-- The palette has exactly 256 entries. -/
theorem XTERM256_length : XTERM256.length = 256 := by decide

/-- The luminance comparison against the 140 threshold, reduced to the
equivalent integer comparison scaled by 10000. -/
theorem luminance_gt_iff (r g b : Nat) :
    luminance r g b > 140 ↔ 1400000 < 2126 * r + 7152 * g + 722 * b := by
  unfold luminance
  rw [show (0.2126 : ℚ) = 2126 / 10000 by norm_num,
      show (0.7152 : ℚ) = 7152 / 10000 by norm_num,
      show (0.0722 : ℚ) = 722 / 10000 by norm_num,
      ← Nat.cast_lt (α := ℚ)]
  push_cast
  constructor <;> intro h <;> nlinarith

/-- `auto_contrast_fg` computed with the scaled integer threshold test. -/
theorem auto_contrast_fg_eq (b : Nat) :
    auto_contrast_fg b = (XTERM256.get? b).map
      (fun t => if 1400000 < 2126 * t.1 + 7152 * t.2.1 + 722 * t.2.2 then 0 else 15) := by
  unfold auto_contrast_fg
  refine Option.map_congr ?_
  intro t _
  by_cases hc : 1400000 < 2126 * t.1 + 7152 * t.2.1 + 722 * t.2.2
  · rw [if_pos ((luminance_gt_iff _ _ _).2 hc), if_pos hc]
  · rw [if_neg (fun hl => hc ((luminance_gt_iff _ _ _).1 hl)), if_neg hc]

/-- In-range palette accesses succeed, returning the `getD` value. -/
theorem XTERM256_get?_eq (b : Nat) (hb : b < 256) :
    XTERM256.get? b = some (XTERM256.getD b (0, 0, 0)) := by
  have hb' : b < XTERM256.length := by rw [XTERM256_length]; exact hb
  rw [List.getD_eq_getElem?_getD, List.get?_eq_getElem?,
      List.getElem?_eq_getElem hb']
  rfl

/-- Zeros contribute nothing: dropping them preserves the sum. -/
theorem sum_filter_ne_zero (l : List Nat) :
    (l.filter (fun x => x ≠ 0)).sum = l.sum := by
  induction l with
  | nil => rfl
  | cons x rest ih =>
      rw [List.filter_cons]
      by_cases h : x = 0
      · rw [if_neg (by simp [h]), List.sum_cons, ih, h]
        omega
      · rw [if_pos (by simp [h]), List.sum_cons, List.sum_cons, ih]

/-- Merging never lengthens the line. -/
theorem mergeLeft_length_le (xs : List Nat) :
    (mergeLeft xs).1.length ≤ xs.length := by
  match xs with
  | [] => exact Nat.le_refl _
  | [x] => exact Nat.le_refl _
  | x :: y :: rest =>
      by_cases h : x = y
      · have := mergeLeft_length_le rest
        simp only [mergeLeft, if_pos h, List.length_cons]
        omega
      · have := mergeLeft_length_le (y :: rest)
        simp only [mergeLeft, if_neg h, List.length_cons] at this ⊢
        omega

/-- Merging preserves total tile mass. -/
theorem mergeLeft_sum (xs : List Nat) : (mergeLeft xs).1.sum = xs.sum := by
  match xs with
  | [] => rfl
  | [x] => rfl
  | x :: y :: rest =>
      by_cases h : x = y
      · have := mergeLeft_sum rest
        simp only [mergeLeft, if_pos h, List.sum_cons]
        omega
      · have := mergeLeft_sum (y :: rest)
        simp only [mergeLeft, if_neg h, List.sum_cons] at this ⊢
        omega

/-- The gained score is exactly the sum of the newly merged tile values. -/
theorem mergeLeft_gained (xs : List Nat) :
    (mergeLeft xs).2 = (mergedValuesSpec xs).sum := by
  match xs with
  | [] => rfl
  | [x] => rfl
  | x :: y :: rest =>
      by_cases h : x = y
      · have := mergeLeft_gained rest
        simp only [mergeLeft, mergedValuesSpec, if_pos h, List.sum_cons]
        omega
      · have := mergeLeft_gained (y :: rest)
        simp only [mergeLeft, mergedValuesSpec, if_neg h] at this ⊢
        exact this

/-- Each merge consumes exactly two tiles and produces one, so every tile
participates in at most one merge. -/
theorem mergeLeft_merge_count (xs : List Nat) :
    xs.length = (mergeLeft xs).1.length + (mergedValuesSpec xs).length := by
  match xs with
  | [] => rfl
  | [x] => rfl
  | x :: y :: rest =>
      by_cases h : x = y
      · have := mergeLeft_merge_count rest
        simp only [mergeLeft, mergedValuesSpec, if_pos h, List.length_cons]
        omega
      · have := mergeLeft_merge_count (y :: rest)
        simp only [mergeLeft, mergedValuesSpec, if_neg h, List.length_cons] at this ⊢
        omega

/-! ## Claims -/

/-- Claim C3: palette construction yields exactly 256 entries; indices 0–15
are the sixteen literal ANSI triples; index `16 + 36r + 6g + b` is the cube
entry with components from the `cube_level` lookup, red varying slowest;
index `232 + i` is the grayscale triple `(8+10i, 8+10i, 8+10i)`; and the
five spotlighted entries have the stated values. -/
theorem C3_palette_layout :
    XTERM256.length = 256 ∧
    XTERM256.take 16 =
      [ (0,0,0), (205,0,0), (0,205,0), (205,205,0),
        (0,0,238), (205,0,205), (0,205,205), (229,229,229),
        (127,127,127), (255,0,0), (0,255,0), (255,255,0),
        (92,92,255), (255,0,255), (0,255,255), (255,255,255) ] ∧
    (∀ r : Fin 6, ∀ g : Fin 6, ∀ b : Fin 6,
      XTERM256.getD (16 + 36 * r.1 + 6 * g.1 + b.1) (0,0,0) =
        (cube_level r.1, cube_level g.1, cube_level b.1)) ∧
    (∀ i : Fin 24,
      XTERM256.getD (232 + i.1) (0,0,0) = (8 + 10 * i.1, 8 + 10 * i.1, 8 + 10 * i.1)) ∧
    XTERM256.getD 0 (9,9,9) = (0,0,0) ∧
    XTERM256.getD 16 (9,9,9) = (0,0,0) ∧
    XTERM256.getD 231 (9,9,9) = (255,255,255) ∧
    XTERM256.getD 232 (9,9,9) = (8,8,8) ∧
    XTERM256.getD 255 (9,9,9) = (238,238,238) := by
  refine ⟨by decide, by decide, by decide, by decide, by decide, by decide,
    by decide, by decide, by decide⟩

/-- Claim C5: for every background index, `contrastForeground`
(`_auto_contrast_fg`) returns only the pure-black index 0 or the pure-white
index 15 — where palette entry 0 is `(0,0,0)` and entry 15 is
`(255,255,255)` — and the choice compares the luma-weighted luminance
`0.2126R + 0.7152G + 0.0722B` of the background triple against the fixed
threshold 140: above the threshold yields black, otherwise white. -/
theorem C5_contrast_foreground :
    (∀ b : Fin 256,
      auto_contrast_fg b.1 = some 0 ∨ auto_contrast_fg b.1 = some 15) ∧
    (∀ b : Fin 256,
      auto_contrast_fg b.1 =
        some (if luminance (XTERM256.getD b.1 (0,0,0)).1
                  (XTERM256.getD b.1 (0,0,0)).2.1
                  (XTERM256.getD b.1 (0,0,0)).2.2 > 140 then 0 else 15)) ∧
    XTERM256.getD 0 (9,9,9) = (0,0,0) ∧
    XTERM256.getD 15 (9,9,9) = (255,255,255) := by
  have key : ∀ b : Fin 256,
      auto_contrast_fg b.1 =
        some (if luminance (XTERM256.getD b.1 (0,0,0)).1
                  (XTERM256.getD b.1 (0,0,0)).2.1
                  (XTERM256.getD b.1 (0,0,0)).2.2 > 140 then 0 else 15) := by
    intro b
    rw [auto_contrast_fg_eq, XTERM256_get?_eq b.1 b.2]
    set t := XTERM256.getD b.1 (0,0,0) with ht
    show some (if 1400000 < 2126 * t.1 + 7152 * t.2.1 + 722 * t.2.2 then (0:Nat) else 15) =
      some (if luminance t.1 t.2.1 t.2.2 > 140 then (0:Nat) else 15)
    congr 1
    by_cases hc : 1400000 < 2126 * t.1 + 7152 * t.2.1 + 722 * t.2.2
    · rw [if_pos hc, if_pos ((luminance_gt_iff _ _ _).2 hc)]
    · rw [if_neg hc, if_neg (fun hl => hc ((luminance_gt_iff _ _ _).1 hl))]
  refine ⟨fun b => ?_, key, by decide, by decide⟩
  rw [key b]
  by_cases hc : luminance (XTERM256.getD b.1 (0,0,0)).1
      (XTERM256.getD b.1 (0,0,0)).2.1 (XTERM256.getD b.1 (0,0,0)).2.2 > 140
  · exact Or.inl (by rw [if_pos hc])
  · exact Or.inr (by rw [if_neg hc])

/-- Claim C10: `compress_line` preserves line length and total tile mass,
`gained` is the sum of the newly merged tile values with each tile merged
at most once (each merge consumes two tiles and produces one), and `moved`
is true exactly when the output differs from the input. -/
theorem C10_compress_line (line out : List Nat) (moved : Bool) (gained : Nat)
    (h : compress_line line = (out, moved, gained)) :
    out.length = line.length ∧
    out.sum = line.sum ∧
    gained = (mergedValuesSpec (line.filter (fun x => x ≠ 0))).sum ∧
    (line.filter (fun x => x ≠ 0)).length =
      (mergeLeft (line.filter (fun x => x ≠ 0))).1.length +
        (mergedValuesSpec (line.filter (fun x => x ≠ 0))).length ∧
    (moved = true ↔ out ≠ line) := by
  have h1 := congrArg Prod.fst h
  have h2 := congrArg (fun p => p.2.1) h
  have h3 := congrArg (fun p => p.2.2) h
  simp only [compress_line] at h1 h2 h3
  have hlen_le : (mergeLeft (line.filter (fun x => x ≠ 0))).1.length ≤ line.length :=
    Nat.le_trans (mergeLeft_length_le _) (List.length_filter_le _ _)
  subst h1 h2 h3
  refine ⟨?_, ?_, ?_, mergeLeft_merge_count _, ?_⟩
  · simp only [List.length_append, List.length_replicate]
    omega
  · simp only [List.sum_append, List.sum_replicate, smul_eq_mul, Nat.mul_zero,
      Nat.add_zero]
    rw [mergeLeft_sum, sum_filter_ne_zero]
  · rw [mergeLeft_gained]
  · exact decide_eq_true_iff

/-- Witness for C10: the concrete line `[2,2,4,0]` compresses to
`([4,4,0,0], moved, 4)` and satisfies the claimed properties. -/
theorem C10_witness :
    compress_line [2,2,4,0] = ([4,4,0,0], true, 4) ∧
    ([4,4,0,0] : List Nat).length = ([2,2,4,0] : List Nat).length ∧
    ([4,4,0,0] : List Nat).sum = ([2,2,4,0] : List Nat).sum ∧
    4 = (mergedValuesSpec (([2,2,4,0] : List Nat).filter (fun x => x ≠ 0))).sum ∧
    (([2,2,4,0] : List Nat).filter (fun x => x ≠ 0)).length =
      (mergeLeft (([2,2,4,0] : List Nat).filter (fun x => x ≠ 0))).1.length +
        (mergedValuesSpec (([2,2,4,0] : List Nat).filter (fun x => x ≠ 0))).length ∧
    (true = true ↔ ([4,4,0,0] : List Nat) ≠ [2,2,4,0]) := by
  have h : compress_line [2,2,4,0] = ([4,4,0,0], true, 4) := by decide
  have := C10_compress_line [2,2,4,0] [4,4,0,0] true 4 h
  exact ⟨h, this.1, this.2.1, this.2.2.1, this.2.2.2.1, this.2.2.2.2⟩

/-! ## Frame-loop helper lemmas -/

/-- An application whose callbacks never raise. -/
def pureApp : App := ⟨fun _ => false, fun _ => false⟩

/-- With a non-raising key handler, draining forwards exactly the buffered
keys before the first quit key, in arrival order, and reports a quit
exactly when a quit key is buffered. -/
theorem drainLoop_eq (app : App) (hk : ∀ c, app.onKeyFails c = false)
    (keys : List Int) :
    drainLoop app keys =
      ((keys.takeWhile (fun c => !isQuit c)).map Ev.key,
       if keys.any isQuit then DrainRes.quit else DrainRes.drained) := by
  induction keys with
  | nil => rfl
  | cons c rest ih =>
      by_cases hq : isQuit c
      · simp [drainLoop, hq, List.takeWhile_cons, List.any_cons]
      · simp [drainLoop, hq, hk c, List.takeWhile_cons, List.any_cons, ih]

/-- Draining a quit-free buffer forwards every key. -/
theorem drainLoop_no_quit (app : App) (hk : ∀ c, app.onKeyFails c = false)
    (keys : List Int) (hq : keys.any isQuit = false) :
    drainLoop app keys = (keys.map Ev.key, DrainRes.drained) := by
  rw [drainLoop_eq app hk keys, hq, if_neg (by simp)]
  have : keys.takeWhile (fun c => !isQuit c) = keys :=
    List.takeWhile_eq_self_iff.2 (fun x hx => by
      simpa using List.any_eq_false.mp hq x hx)
  rw [this]

/-- Every event emitted by the input drain is a key dispatch. -/
theorem drainLoop_events (app : App) (keys : List Int) :
    ∀ e ∈ (drainLoop app keys).1, ∃ c, e = Ev.key c := by
  induction keys with
  | nil => intro e he; cases he
  | cons c rest ih =>
      intro e he
      by_cases hq : isQuit c
      · simp [drainLoop, hq] at he
      · by_cases hf : app.onKeyFails c
        · simp [drainLoop, hq, hf] at he
          exact ⟨c, he⟩
        · simp only [drainLoop, hq, hf, if_neg, Bool.false_eq_true,
            if_false, List.mem_cons] at he
          rcases he with he | he
          · exact ⟨c, he⟩
          · exact ih e he

/-- The loop body never emits a present/flush event: its per-iteration
actions are the pacing sleep, key dispatches and the draw call. -/
theorem loopFrames_no_present (app : App) :
    ∀ (script : List (List Int)) (n : Nat),
      Ev.present ∉ (loopFrames app n script).1 := by
  intro script
  induction script with
  | nil => intro n h; cases h
  | cons keys rest ih =>
      intro n h
      have hkey : ∀ e ∈ (drainLoop app keys).1, ∃ c, e = Ev.key c :=
        drainLoop_events app keys
      simp only [loopFrames] at h
      rcases hd : (drainLoop app keys).2 with _ | _ | _ <;> rw [hd] at h
      · by_cases hf : app.onDrawFails n
        · rw [if_pos hf] at h
          rcases List.mem_cons.1 h with h | h
          · cases h
          · rcases List.mem_append.1 h with h | h
            · rcases hkey _ h with ⟨c, hc⟩; cases hc
            · rcases List.mem_singleton.1 h
        · rw [if_neg hf] at h
          rcases List.mem_cons.1 h with h | h
          · cases h
          · rcases List.mem_append.1 h with h | h
            · rcases hkey _ h with ⟨c, hc⟩; cases hc
            · rcases List.mem_cons.1 h with h | h
              · cases h
              · exact ih (n + 1) h
      · rcases List.mem_cons.1 h with h | h
        · cases h
        · rcases hkey _ h with ⟨c, hc⟩; cases hc
      · rcases List.mem_cons.1 h with h | h
        · cases h
        · rcases hkey _ h with ⟨c, hc⟩; cases hc

/-- Teardown only performs the four restoration steps and `endwin`. -/
theorem trySteps_subset (fails : Nat → Bool) :
    ∀ (l : List Ev) (i : Nat), ∀ e ∈ trySteps fails l i, e ∈ l := by
  intro l
  induction l with
  | nil => intro i e he; cases he
  | cons x rest ih =>
      intro i e he
      by_cases hf : fails i
      · simp only [trySteps, if_pos hf, List.mem_singleton] at he
        exact he ▸ List.mem_cons_self x rest
      · simp only [trySteps, if_neg hf, List.mem_cons] at he
        rcases he with he | he
        · exact he ▸ List.mem_cons_self x rest
        · exact List.mem_cons_of_mem x (ih (i + 1) e he)

/-! ## Claims about the frame loop -/

/-- Claim C2: in a Running iteration all buffered keys are drained and
dispatched to the key handler in arrival order before the draw callback
runs; a buffered `q`/ESC immediately terminates the loop, is never
forwarded, and no further draw runs after it; every non-quit key before
the first quit key is forwarded exactly once.  Concretely, with keys
`"a","b","q"` buffered, `onKey` receives 97 then 98 and the loop
terminates with no further draw. -/
theorem C2_input_dispatch (app : App)
    (hk : ∀ c, app.onKeyFails c = false) :
    (∀ keys : List Int,
      drainLoop app keys =
        ((keys.takeWhile (fun c => !isQuit c)).map Ev.key,
         if keys.any isQuit then DrainRes.quit else DrainRes.drained)) ∧
    (∀ (keys : List Int) (c : Int),
      Ev.key c ∈ (drainLoop app keys).1 → isQuit c = false) ∧
    (∀ (keys : List Int) (rest : List (List Int)) (n : Nat),
      keys.any isQuit = false → app.onDrawFails n = false →
      loopFrames app n (keys :: rest) =
        (Ev.sleep :: keys.map Ev.key ++ Ev.draw :: (loopFrames app (n + 1) rest).1,
         (loopFrames app (n + 1) rest).2)) ∧
    (∀ (keys : List Int) (rest : List (List Int)) (n : Nat),
      keys.any isQuit = true →
      loopFrames app n (keys :: rest) =
        (Ev.sleep :: (keys.takeWhile (fun c => !isQuit c)).map Ev.key, false)) ∧
    mainloop app [[97, 98, 113]] (fun _ => false) =
      ([Ev.sleep, Ev.key 97, Ev.key 98, Ev.keypadOff, Ev.nocbreakStep,
        Ev.echoStep, Ev.cursSet, Ev.endwin], false) := by
  have hdrain := drainLoop_eq app hk
  refine ⟨hdrain, ?_, ?_, ?_, ?_⟩
  · intro keys c hc
    rw [hdrain keys] at hc
    simp only [List.mem_map] at hc
    rcases hc with ⟨x, hx, hxc⟩
    have := List.mem_takeWhile_imp hx
    rcases hxc with rfl | _
    · simpa using this
  · intro keys rest n hq hd
    simp only [loopFrames, drainLoop_no_quit app hk keys hq, hd,
      Bool.false_eq_true, if_false]
  · intro keys rest n hq
    simp only [loopFrames, hdrain keys, hq, if_pos]
  · have h1 : ([97, 98, 113] : List Int).any isQuit = true := by decide
    have h2 := drainLoop_eq app hk [97, 98, 113]
    rw [h1, if_pos rfl] at h2
    simp only [mainloop, loopFrames, h2]
    decide

/-- Witness for C2: instantiated at the never-raising application. -/
theorem C2_witness :
    (∀ c, pureApp.onKeyFails c = false) ∧
    mainloop pureApp [[97, 98, 113]] (fun _ => false) =
      ([Ev.sleep, Ev.key 97, Ev.key 98, Ev.keypadOff, Ev.nocbreakStep,
        Ev.echoStep, Ev.cursSet, Ev.endwin], false) :=
  ⟨fun _ => rfl, (C2_input_dispatch pureApp (fun _ => rfl)).2.2.2.2⟩

/-- Claim C7: terminal restoration runs on every exit path of the frame
loop — the teardown trace follows the loop trace whether the loop returned
via a quit key or exited through a raising callback — and the final
`endwin` step is reached even when an earlier restoration step raises. -/
theorem C7_teardown_always (app : App) (script : List (List Int))
    (tdFails : Nat → Bool) :
    (mainloop app script tdFails).1 =
      (loopFrames app 0 script).1 ++ teardown tdFails ∧
    Ev.endwin ∈ (mainloop app script tdFails).1 ∧
    (teardown tdFails).getLast? = some Ev.endwin ∧
    teardown (fun _ => false) =
      [Ev.keypadOff, Ev.nocbreakStep, Ev.echoStep, Ev.cursSet, Ev.endwin] := by
  refine ⟨rfl, ?_, ?_, by decide⟩
  · show Ev.endwin ∈ (loopFrames app 0 script).1 ++ teardown tdFails
    refine List.mem_append.2 (Or.inr ?_)
    exact List.mem_append.2 (Or.inr (List.mem_singleton.2 rfl))
  · exact List.getLast?_concat _

/-- Claim C9 as stated is false: the frame loop performs no flush/present
of its own.  In the concrete run with one buffered key 97, the iteration's
draw callback runs but no present event is ever emitted by the loop. -/
theorem C9_counterexample :
    Ev.draw ∈ (mainloop pureApp [[97]] (fun _ => false)).1 ∧
    Ev.present ∉ (mainloop pureApp [[97]] (fun _ => false)).1 := by decide

/-- Claim C9 (amended): in every Running iteration the draw callback is
invoked exactly once, as the final action the loop itself performs for
that iteration; the loop emits no flush/present of its own on any path —
presentation is the draw callback's responsibility, not the loop's. -/
theorem C9_draw_last_no_present (app : App) (script : List (List Int))
    (tdFails : Nat → Bool) :
    Ev.present ∉ (mainloop app script tdFails).1 ∧
    (∀ (keys : List Int) (rest : List (List Int)) (n : Nat),
      (∀ c, app.onKeyFails c = false) → keys.any isQuit = false →
      app.onDrawFails n = false →
      (loopFrames app n (keys :: rest)).1 =
        Ev.sleep :: keys.map Ev.key ++ Ev.draw :: (loopFrames app (n + 1) rest).1) := by
  constructor
  · intro h
    rcases List.mem_append.1 h with h | h
    · exact loopFrames_no_present app script 0 h
    · rcases List.mem_append.1 h with h | h
      · exact absurd (trySteps_subset tdFails _ 0 _ h) (by decide)
      · exact absurd (List.mem_singleton.1 h) (by decide)
  · intro keys rest n hk hq hd
    simp only [loopFrames, drainLoop_no_quit app hk keys hq, hd,
      Bool.false_eq_true, if_false]

/-- Witness for the amended C9, at the never-raising application with one
buffered key. -/
theorem C9_witness :
    Ev.present ∉ (mainloop pureApp [[97]] (fun _ => false)).1 ∧
    (loopFrames pureApp 0 [[97]]).1 =
      Ev.sleep :: ([97] : List Int).map Ev.key ++
        Ev.draw :: (loopFrames pureApp 1 []).1 :=
  ⟨(C9_draw_last_no_present pureApp [[97]] (fun _ => false)).1,
   (C9_draw_last_no_present pureApp [[97]] (fun _ => false)).2 [97] [] 0
     (fun _ => rfl) (by decide) rfl⟩

/-! ## Claims about the attribute cache -/

/-- Claim C6: when the pair-slot ceiling is exhausted, allocating a pair
for a not-yet-seen tuple fails loudly (it never returns a slot id) and the
failure is atomic — the error carries the state exactly as it was, so
every previously cached mapping is unchanged. -/
theorem C6_exhaustion_fails_atomically (ceiling fg bg : Nat) (st : PairState)
    (hnew : alist_lookup st.cache (fg, bg) = none)
    (hfull : ¬ st.next < ceiling) :
    pair_for_indices ceiling fg bg st = .error st ∧
    (∀ (pid : Nat) (st2 : PairState),
      pair_for_indices ceiling fg bg st ≠ .ok (pid, st2)) ∧
    (∀ (e : PairState), pair_for_indices ceiling fg bg st = .error e →
      ∀ (k : Nat × Nat) (id : Nat),
        alist_lookup st.cache k = some id → alist_lookup e.cache k = some id) := by
  have herr : pair_for_indices ceiling fg bg st = .error st := by
    simp [pair_for_indices, hnew, hfull]
  refine ⟨herr, ?_, ?_⟩
  · intro pid st2 hok
    rw [herr] at hok
    cases hok
  · intro e he k id hk
    rw [herr] at he
    cases he
    exact hk

/-- Witness for C6: with ceiling 3 and both slots 1 and 2 already handed
out, allocating the unseen tuple `(5,5)` errors with the state intact. -/
theorem C6_witness :
    alist_lookup (PairState.mk [((0,0),1), ((0,1),2)] 3).cache (5, 5) = none ∧
    ¬ (PairState.mk [((0,0),1), ((0,1),2)] 3).next < 3 ∧
    pair_for_indices 3 5 5 (PairState.mk [((0,0),1), ((0,1),2)] 3) =
      .error (PairState.mk [((0,0),1), ((0,1),2)] 3) :=
  ⟨by decide, by decide,
   (C6_exhaustion_fails_atomically 3 5 5 (PairState.mk [((0,0),1), ((0,1),2)] 3)
     (by decide) (by decide)).1⟩

/-- Claim C8: bold and underline are orthogonal to color.  `get_color` with
any style flags equals `get_color` without them with the bold/underline
bits OR-ed onto the attribute: the same pair slot is used and the final
cache state (pair table and counter) is identical, so the style flags never
cause a pair-slot allocation. -/
theorem C8_styles_orthogonal (ceiling : Nat) (bg : String × String)
    (fg : Option (String × String)) (bold underline : Bool) (st : PairState) :
    get_color ceiling bg fg bold underline st =
      (get_color ceiling bg fg false false st).map
        (fun p => (p.1 ||| (if bold then A_BOLD else 0) |||
                   (if underline then A_UNDERLINE else 0), p.2)) := by
  unfold get_color
  cases hbg : resolveIndex bg.1 bg.2 with
  | none => rfl
  | some bg_idx =>
      simp only []
      cases hfg : fg_index bg_idx fg with
      | error e => rfl
      | ok fg_idx =>
          simp only []
          cases hp : pair_for_indices ceiling fg_idx bg_idx st with
          | error e => rfl
          | ok v =>
              cases bold <;> cases underline <;>
                simp [Except.map, Nat.or_zero]

/-! ## Nearest-index minimality (C4) -/

/-- Squared RGB distance from `(r,g,b)` to palette entry `j`. -/
def distTo (r g b : Int) (j : Nat) : Int :=
  dist2 r g b ((XTERM256.getD j (0, 0, 0)).1 : Int)
    ((XTERM256.getD j (0, 0, 0)).2.1 : Int)
    ((XTERM256.getD j (0, 0, 0)).2.2 : Int)

/-- Every hex digit value is at most 15. -/
theorem hexDigitVal_le (c : Char) : hexDigitVal c ≤ 15 := by
  unfold hexDigitVal
  split_ifs <;> omega

/-- Parsed hex components are bytes. -/
theorem hex_to_rgb_le (h : String) :
    (hex_to_rgb h).1 ≤ 255 ∧ (hex_to_rgb h).2.1 ≤ 255 ∧ (hex_to_rgb h).2.2 ≤ 255 := by
  unfold hex_to_rgb
  split
  next a b c d e f heq =>
      have ha := hexDigitVal_le a
      have hb := hexDigitVal_le b
      have hc := hexDigitVal_le c
      have hd := hexDigitVal_le d
      have he := hexDigitVal_le e
      have hf := hexDigitVal_le f
      refine ⟨?_, ?_, ?_⟩
      · show 16 * hexDigitVal a + hexDigitVal b ≤ 255
        omega
      · show 16 * hexDigitVal c + hexDigitVal d ≤ 255
        omega
      · show 16 * hexDigitVal e + hexDigitVal f ≤ 255
        omega
  next => exact ⟨by decide, by decide, by decide⟩

/-- Loop invariant of the `_nearest_index` scan: once the running best is a
genuine minimum (with lowest-index tie-break) of the already-scanned prefix,
the final result is a genuine minimum of the whole palette. -/
theorem nearLoop_min (r g b : Int) :
    ∀ (l : List (Nat × Nat × Nat)) (i bi : Nat) (bd : Int),
      l = XTERM256.drop i →
      bi < XTERM256.length →
      bi < i →
      bd = distTo r g b bi →
      (∀ j, j < i → bd ≤ distTo r g b j) →
      (∀ j, j < i → distTo r g b j = bd → bi ≤ j) →
      nearLoop r g b l i bi bd < XTERM256.length ∧
      distTo r g b (nearLoop r g b l i bi bd) ≤ bd ∧
      (∀ j, j < XTERM256.length →
        distTo r g b (nearLoop r g b l i bi bd) ≤ distTo r g b j) ∧
      (∀ j, j < XTERM256.length →
        distTo r g b j = distTo r g b (nearLoop r g b l i bi bd) →
        nearLoop r g b l i bi bd ≤ j) := by
  intro l
  induction l with
  | nil =>
      intro i bi bd hl hbl hbi hbd hmin htie
      have hle : XTERM256.length ≤ i := by
        rw [← List.drop_eq_nil_iff, ← hl]
      refine ⟨hbl, by rw [nearLoop, hbd], ?_, ?_⟩
      · intro j hj
        rw [nearLoop, ← hbd]
        exact hmin j (lt_of_lt_of_le hj hle)
      · intro j hj hdj
        rw [nearLoop] at hdj ⊢
        exact htie j (lt_of_lt_of_le hj hle) (by rw [hdj, hbd])
  | cons e rest ih =>
      intro i bi bd hl hbl hbi hbd hmin htie
      obtain ⟨e1, e2, e3⟩ := e
      have hi : i < XTERM256.length := by
        by_contra hge
        rw [List.drop_eq_nil_iff.2 (Nat.le_of_not_lt hge)] at hl
        cases hl
      have he : XTERM256.get? i = some (e1, e2, e3) := by
        have := List.getElem?_drop XTERM256 i 0
        rw [← hl] at this
        rw [List.get?_eq_getElem?]
        simpa using this.symm
      have heD : XTERM256.getD i (0, 0, 0) = (e1, e2, e3) := by
        rw [List.getD_eq_getElem?_getD, ← List.get?_eq_getElem?, he]
        rfl
      have hde : dist2 r g b (e1 : Int) (e2 : Int) (e3 : Int) = distTo r g b i := by
        rw [distTo, heD]
      have hrest : rest = XTERM256.drop (i + 1) := by
        have := List.tail_drop XTERM256 i
        rw [← hl] at this
        simpa using this
      simp only [nearLoop]
      by_cases hlt : dist2 r g b (e1 : Int) (e2 : Int) (e3 : Int) < bd
      · rw [if_pos hlt]
        have hih := ih (i + 1) i (dist2 r g b (e1 : Int) (e2 : Int) (e3 : Int))
          hrest hi (Nat.lt_succ_self i) hde
          (fun j hj => by
            rcases Nat.lt_succ_iff_lt_or_eq.1 hj with hj | rfl
            · exact le_of_lt (lt_of_lt_of_le hlt (hmin j hj))
            · exact le_of_eq hde)
          (fun j hj hdj => by
            rcases Nat.lt_succ_iff_lt_or_eq.1 hj with hj | rfl
            · exact absurd hdj (ne_of_gt (lt_of_lt_of_le hlt (hmin j hj)))
            · exact Nat.le_refl j)
        exact ⟨hih.1, le_trans hih.2.1 (le_of_lt hlt), hih.2.2.1, hih.2.2.2⟩
      · rw [if_neg hlt]
        refine ih (i + 1) bi bd hrest hbl (Nat.lt_succ_of_lt hbi) hbd ?_ ?_
        · intro j hj
          rcases Nat.lt_succ_iff_lt_or_eq.1 hj with hj | rfl
          · exact hmin j hj
          · rw [hde] at hlt; exact Int.not_lt.1 hlt
        · intro j hj hdj
          rcases Nat.lt_succ_iff_lt_or_eq.1 hj with hj | rfl
          · exact htie j hj hdj
          · exact Nat.le_of_lt hbi

/-- `_nearest_index` returns an in-range index minimising the squared RGB
distance, with ties broken by the lowest index, provided the first
distance beats the `1e18` sentinel. -/
theorem nearest_index_spec (r g b : Int)
    (h0 : distTo r g b 0 < 10 ^ 18) :
    nearest_index r g b < 256 ∧
    (∀ j, j < 256 → distTo r g b (nearest_index r g b) ≤ distTo r g b j) ∧
    (∀ j, j < 256 → distTo r g b j = distTo r g b (nearest_index r g b) →
      nearest_index r g b ≤ j) := by
  have hlen : XTERM256.length = 256 := XTERM256_length
  rcases hx : XTERM256 with _ | ⟨e, rest⟩
  · rw [hx] at hlen; cases hlen
  · obtain ⟨e1, e2, e3⟩ := e
    have heD : XTERM256.getD 0 (0, 0, 0) = (e1, e2, e3) := by rw [hx]; rfl
    have hde : dist2 r g b (e1 : Int) (e2 : Int) (e3 : Int) = distTo r g b 0 := by
      rw [distTo, heD]
    have hrest : rest = XTERM256.drop 1 := by rw [hx]; rfl
    have h0' : (0 : Nat) < XTERM256.length := by rw [hlen]; omega
    unfold nearest_index
    rw [hx]
    simp only [nearLoop]
    rw [if_pos (by rw [hde]; exact h0)]
    have := nearLoop_min r g b rest 1 0
      (dist2 r g b (e1 : Int) (e2 : Int) (e3 : Int))
      hrest h0' Nat.zero_lt_one hde
      (fun j hj => by
        interval_cases j
        exact le_of_eq hde)
      (fun j hj _ => Nat.zero_le j)
    rw [hlen] at this
    exact ⟨this.1, this.2.2.1, this.2.2.2⟩

/-- Association-list lookup commutes with a value-mapping of the table. -/
theorem alist_lookup_map_snd {α β γ : Type} [DecidableEq α] (f : β → γ) :
    ∀ (l : List (α × β)) (k : α),
      alist_lookup (l.map (fun p => (p.1, f p.2))) k =
        (alist_lookup l k).map f := by
  intro l
  induction l with
  | nil => intro k; rfl
  | cons p rest ih =>
      intro k
      obtain ⟨k0, v0⟩ := p
      by_cases hk : k = k0
      · simp [alist_lookup, hk]
      · simp [alist_lookup, hk, ih]

/-- `resolveIndex` is the nearest-index scan applied to the registered hex
triple. -/
theorem resolveIndex_eq (name var : String) :
    resolveIndex name var = (lookupHex name var).map (fun hx =>
      nearest_index ((hex_to_rgb hx).1 : Int) ((hex_to_rgb hx).2.1 : Int)
        ((hex_to_rgb hx).2.2 : Int)) := by
  unfold resolveIndex lookupHex COLOR_IDX
  rw [alist_lookup_map_snd
    (fun vs : List (String × String) => vs.map (fun q =>
      (q.1, nearest_index ((hex_to_rgb q.2).1 : Int)
        ((hex_to_rgb q.2).2.1 : Int) ((hex_to_rgb q.2).2.2 : Int))))]
  cases alist_lookup COLOR_HEX name with
  | none => rfl
  | some vs =>
      show alist_lookup (vs.map _) var = _
      rw [alist_lookup_map_snd
        (fun hx : String => nearest_index ((hex_to_rgb hx).1 : Int)
          ((hex_to_rgb hx).2.1 : Int) ((hex_to_rgb hx).2.2 : Int))]
      rfl

/-- Claim C4: for every registered (name, variant) pair, `resolveIndex`
returns an index in `[0,255]` equal to the index of the palette entry at
minimum squared Euclidean RGB distance from the registered triple, ties
broken by the lowest index scanned; determinism is immediate since the
embedding is a pure function of the fixed tables. -/
theorem C4_resolve_nearest (name var hx : String) (idx : Nat)
    (hhex : lookupHex name var = some hx)
    (hres : resolveIndex name var = some idx) :
    idx ≤ 255 ∧
    (∀ j : Fin 256,
      distTo ((hex_to_rgb hx).1 : Int) ((hex_to_rgb hx).2.1 : Int)
        ((hex_to_rgb hx).2.2 : Int) idx ≤
      distTo ((hex_to_rgb hx).1 : Int) ((hex_to_rgb hx).2.1 : Int)
        ((hex_to_rgb hx).2.2 : Int) j.1) ∧
    (∀ j : Fin 256,
      distTo ((hex_to_rgb hx).1 : Int) ((hex_to_rgb hx).2.1 : Int)
        ((hex_to_rgb hx).2.2 : Int) j.1 =
      distTo ((hex_to_rgb hx).1 : Int) ((hex_to_rgb hx).2.1 : Int)
        ((hex_to_rgb hx).2.2 : Int) idx →
      idx ≤ j.1) := by
  rw [resolveIndex_eq, hhex] at hres
  have hidx : idx = nearest_index ((hex_to_rgb hx).1 : Int)
      ((hex_to_rgb hx).2.1 : Int) ((hex_to_rgb hx).2.2 : Int) :=
    (Option.some.inj hres).symm
  obtain ⟨h1, h2, h3⟩ := hex_to_rgb_le hx
  have hD : XTERM256.getD 0 (0, 0, 0) = (0, 0, 0) := by decide
  have h0 : distTo ((hex_to_rgb hx).1 : Int) ((hex_to_rgb hx).2.1 : Int)
      ((hex_to_rgb hx).2.2 : Int) 0 < 10 ^ 18 := by
    rw [distTo, hD, dist2]
    have b1 : ((hex_to_rgb hx).1 : Int) ≤ 255 := by exact_mod_cast h1
    have b2 : ((hex_to_rgb hx).2.1 : Int) ≤ 255 := by exact_mod_cast h2
    have b3 : ((hex_to_rgb hx).2.2 : Int) ≤ 255 := by exact_mod_cast h3
    have c1 : (0 : Int) ≤ ((hex_to_rgb hx).1 : Int) := Int.ofNat_nonneg _
    have c2 : (0 : Int) ≤ ((hex_to_rgb hx).2.1 : Int) := Int.ofNat_nonneg _
    have c3 : (0 : Int) ≤ ((hex_to_rgb hx).2.2 : Int) := Int.ofNat_nonneg _
    norm_num
    nlinarith [mul_le_mul b1 b1 c1 (by norm_num : (0:Int) ≤ 255),
      mul_le_mul b2 b2 c2 (by norm_num : (0:Int) ≤ 255),
      mul_le_mul b3 b3 c3 (by norm_num : (0:Int) ≤ 255)]
  have hspec := nearest_index_spec _ _ _ h0
  rw [← hidx] at hspec
  exact ⟨by omega, fun j => hspec.2.1 j.1 j.2, fun j => hspec.2.2 j.1 j.2⟩

/-- Witness for C4: `("red","base")` is registered as `#FF0000` and
resolves to palette index 9, the ANSI red entry (the lowest index at the
minimal distance — the cube also has an exact `(255,0,0)` at 196). -/
theorem C4_witness :
    lookupHex "red" "base" = some "#FF0000" ∧
    resolveIndex "red" "base" = some 9 ∧
    9 ≤ 255 ∧
    (∀ j : Fin 256,
      distTo ((hex_to_rgb "#FF0000").1 : Int) ((hex_to_rgb "#FF0000").2.1 : Int)
        ((hex_to_rgb "#FF0000").2.2 : Int) 9 ≤
      distTo ((hex_to_rgb "#FF0000").1 : Int) ((hex_to_rgb "#FF0000").2.1 : Int)
        ((hex_to_rgb "#FF0000").2.2 : Int) j.1) := by
  have hhex : lookupHex "red" "base" = some "#FF0000" := by decide
  have hres : resolveIndex "red" "base" = some 9 := by decide
  have := C4_resolve_nearest "red" "base" "#FF0000" 9 hhex hres
  exact ⟨hhex, hres, this.1, this.2.1⟩

/-! ## Pair-allocation invariant (C1) -/

/-- The distinct keys of `reqs` in first-seen order, appended after the
already-known keys `seen`. -/
def absorb : List (Nat × Nat) → List (Nat × Nat) → List (Nat × Nat)
  | seen, [] => seen
  | seen, k :: rest => absorb (if k ∈ seen then seen else seen ++ [k]) rest

/-- The distinct request tuples of a run, in first-seen order. -/
def firstSeen (reqs : List (Nat × Nat)) : List (Nat × Nat) := absorb [] reqs

/-- Position of the first occurrence of `k` (list length when absent). -/
def keyIdx (k : Nat × Nat) : List (Nat × Nat) → Nat
  | [] => 0
  | k0 :: rest => if k = k0 then 0 else keyIdx k rest + 1

/-- The cache that binds the n-th key of `ks` to slot id `n + s`. -/
def idealCache : List (Nat × Nat) → Nat → List ((Nat × Nat) × Nat)
  | [], _ => []
  | k :: rest, s => (k, s) :: idealCache rest (s + 1)

/-- Positions inside the left part of an append are stable. -/
theorem keyIdx_append_of_mem (k : Nat × Nat) :
    ∀ (l1 l2 : List (Nat × Nat)), k ∈ l1 →
      keyIdx k (l1 ++ l2) = keyIdx k l1 := by
  intro l1
  induction l1 with
  | nil => intro l2 hk; cases hk
  | cons k0 rest ih =>
      intro l2 hk
      show keyIdx k (k0 :: (rest ++ l2)) = keyIdx k (k0 :: rest)
      by_cases he : k = k0
      · simp only [keyIdx, if_pos he]
      · rcases List.mem_cons.1 hk with h | h
        · exact absurd h he
        · simp only [keyIdx, if_neg he, ih l2 h]

/-- A key absent from the left part indexes past it. -/
theorem keyIdx_append_of_not_mem (k : Nat × Nat) :
    ∀ (l1 l2 : List (Nat × Nat)), k ∉ l1 →
      keyIdx k (l1 ++ l2) = l1.length + keyIdx k l2 := by
  intro l1
  induction l1 with
  | nil => intro l2 _; simp [keyIdx]
  | cons k0 rest ih =>
      intro l2 hk
      have he : k ≠ k0 := fun h => hk (h ▸ List.mem_cons_self k0 rest)
      show keyIdx k (k0 :: (rest ++ l2)) = (k0 :: rest).length + keyIdx k l2
      simp only [keyIdx, if_neg he, List.length_cons,
        ih l2 (fun h => hk (List.mem_cons_of_mem k0 h))]
      omega

/-- First-occurrence positions identify members uniquely. -/
theorem keyIdx_inj (k1 k2 : Nat × Nat) :
    ∀ (l : List (Nat × Nat)), k1 ∈ l → k2 ∈ l →
      keyIdx k1 l = keyIdx k2 l → k1 = k2 := by
  intro l
  induction l with
  | nil => intro h1; cases h1
  | cons k0 rest ih =>
      intro h1 h2 he
      by_cases e1 : k1 = k0 <;> by_cases e2 : k2 = k0
      · exact e1.trans e2.symm
      · rw [show keyIdx k1 (k0 :: rest) = 0 by simp [keyIdx, e1],
          show keyIdx k2 (k0 :: rest) = keyIdx k2 rest + 1 by simp [keyIdx, e2]] at he
        cases he
      · rw [show keyIdx k1 (k0 :: rest) = keyIdx k1 rest + 1 by simp [keyIdx, e1],
          show keyIdx k2 (k0 :: rest) = 0 by simp [keyIdx, e2]] at he
        cases he
      · have m1 : k1 ∈ rest := by
          rcases List.mem_cons.1 h1 with h | h
          · exact absurd h e1
          · exact h
        have m2 : k2 ∈ rest := by
          rcases List.mem_cons.1 h2 with h | h
          · exact absurd h e2
          · exact h
        rw [show keyIdx k1 (k0 :: rest) = keyIdx k1 rest + 1 by simp [keyIdx, e1],
          show keyIdx k2 (k0 :: rest) = keyIdx k2 rest + 1 by simp [keyIdx, e2]] at he
        exact ih m1 m2 (Nat.succ.inj he)

/-- Appending a key to the ideal cache binds it to the next id. -/
theorem idealCache_append (k : Nat × Nat) :
    ∀ (ks : List (Nat × Nat)) (s : Nat),
      idealCache (ks ++ [k]) s = idealCache ks s ++ [(k, ks.length + s)] := by
  intro ks
  induction ks with
  | nil => intro s; simp [idealCache]
  | cons k0 rest ih =>
      intro s
      show (k0, s) :: idealCache (rest ++ [k]) (s + 1) =
        ((k0, s) :: idealCache rest (s + 1)) ++ [(k, (k0 :: rest).length + s)]
      rw [ih (s + 1), List.cons_append, List.length_cons,
        show rest.length + 1 + s = rest.length + (s + 1) by omega]

/-- Unknown keys are absent from the ideal cache. -/
theorem lookup_idealCache_of_not_mem (k : Nat × Nat) :
    ∀ (ks : List (Nat × Nat)) (s : Nat), k ∉ ks →
      alist_lookup (idealCache ks s) k = none := by
  intro ks
  induction ks with
  | nil => intro s _; rfl
  | cons k0 rest ih =>
      intro s hk
      have hne : k ≠ k0 := fun h => hk (h ▸ List.mem_cons_self k0 rest)
      simp only [idealCache, alist_lookup, if_neg hne]
      exact ih (s + 1) (fun h => hk (List.mem_cons_of_mem k0 h))

/-- A known key is bound in the ideal cache to `keyIdx + s`. -/
theorem lookup_idealCache_of_mem (k : Nat × Nat) :
    ∀ (ks : List (Nat × Nat)) (s : Nat), k ∈ ks →
      alist_lookup (idealCache ks s) k = some (keyIdx k ks + s) := by
  intro ks
  induction ks with
  | nil => intro s hk; cases hk
  | cons k0 rest ih =>
      intro s hk
      by_cases he : k = k0
      · simp only [idealCache, alist_lookup, if_pos he, keyIdx, Nat.zero_add]
      · have hk' : k ∈ rest := by
          rcases List.mem_cons.1 hk with h | h
          · exact absurd h he
          · exact h
        simp only [idealCache, alist_lookup, if_neg he, keyIdx, ih (s + 1) hk']
        rw [show keyIdx k rest + (s + 1) = keyIdx k rest + 1 + s by omega]

/-- `absorb` only appends new keys after `seen`. -/
theorem absorb_extends :
    ∀ (reqs seen : List (Nat × Nat)), ∃ extra, absorb seen reqs = seen ++ extra := by
  intro reqs
  induction reqs with
  | nil => intro seen; exact ⟨[], by simp [absorb]⟩
  | cons k rest ih =>
      intro seen
      by_cases hk : k ∈ seen
      · simpa [absorb, hk] using ih seen
      · obtain ⟨extra, hex⟩ := ih (seen ++ [k])
        refine ⟨[k] ++ extra, ?_⟩
        simp only [absorb, if_neg hk]
        rw [hex, List.append_assoc]

/-- Keys already seen stay members after absorbing more requests. -/
theorem mem_absorb_left (reqs seen : List (Nat × Nat)) (k : Nat × Nat)
    (hk : k ∈ seen) : k ∈ absorb seen reqs := by
  obtain ⟨extra, hex⟩ := absorb_extends reqs seen
  rw [hex]
  exact List.mem_append.2 (Or.inl hk)

/-- Every requested key ends up absorbed. -/
theorem mem_absorb_req :
    ∀ (reqs seen : List (Nat × Nat)) (k : Nat × Nat), k ∈ reqs →
      k ∈ absorb seen reqs := by
  intro reqs
  induction reqs with
  | nil => intro seen k hk; cases hk
  | cons k0 rest ih =>
      intro seen k hk
      rcases List.mem_cons.1 hk with rfl | hk
      · show k ∈ absorb (if k ∈ seen then seen else seen ++ [k]) rest
        refine mem_absorb_left rest _ k ?_
        by_cases hm : k ∈ seen
        · rw [if_pos hm]; exact hm
        · rw [if_neg hm]; exact List.mem_append.2 (Or.inr (List.mem_singleton.2 rfl))
      · exact ih _ k hk

/-- Absorbing distributes over request concatenation. -/
theorem absorb_append :
    ∀ (l1 l2 seen : List (Nat × Nat)),
      absorb seen (l1 ++ l2) = absorb (absorb seen l1) l2 := by
  intro l1
  induction l1 with
  | nil => intro l2 seen; rfl
  | cons k rest ih =>
      intro l2 seen
      show absorb (if k ∈ seen then seen else seen ++ [k]) (rest ++ l2) =
        absorb (absorb (if k ∈ seen then seen else seen ++ [k]) rest) l2
      exact ih l2 _

/-- Positions of already-seen keys are unchanged by absorbing more. -/
theorem keyIdx_absorb_of_mem (reqs seen : List (Nat × Nat)) (k : Nat × Nat)
    (hk : k ∈ seen) : keyIdx k (absorb seen reqs) = keyIdx k seen := by
  obtain ⟨extra, hex⟩ := absorb_extends reqs seen
  rw [hex, keyIdx_append_of_mem k seen extra hk]

/-- Allocation step on an ideal state, cache-hit case. -/
theorem pair_for_indices_seen (ceiling f b : Nat) (seen : List (Nat × Nat))
    (hmem : (f, b) ∈ seen) :
    pair_for_indices ceiling f b ⟨idealCache seen 1, seen.length + 1⟩ =
      .ok (keyIdx (f, b) seen + 1, ⟨idealCache seen 1, seen.length + 1⟩) := by
  simp [pair_for_indices, lookup_idealCache_of_mem _ _ _ hmem]

/-- Allocation step on an ideal state, fresh-key case under the ceiling. -/
theorem pair_for_indices_new (ceiling f b : Nat) (seen : List (Nat × Nat))
    (hmem : (f, b) ∉ seen) (hcap : seen.length + 1 < ceiling) :
    pair_for_indices ceiling f b ⟨idealCache seen 1, seen.length + 1⟩ =
      .ok (seen.length + 1,
        ⟨idealCache (seen ++ [(f, b)]) 1, (seen ++ [(f, b)]).length + 1⟩) := by
  simp only [pair_for_indices, lookup_idealCache_of_not_mem _ _ _ hmem, if_pos hcap,
    idealCache_append, List.length_append, List.length_singleton]

/-- The allocator, run from an ideal state for `seen`, reaches the ideal
state for `absorb seen reqs` and hands out the ids `keyIdx + 1`. -/
theorem runPairs_invariant (ceiling : Nat) :
    ∀ (reqs seen : List (Nat × Nat)) (pids : List Nat) (st2 : PairState),
      runPairs ceiling reqs ⟨idealCache seen 1, seen.length + 1⟩ = .ok (pids, st2) →
      st2.cache = idealCache (absorb seen reqs) 1 ∧
      st2.next = (absorb seen reqs).length + 1 ∧
      pids.length = reqs.length ∧
      (∀ (i : Nat) (k : Nat × Nat), reqs.get? i = some k →
        pids.get? i = some (keyIdx k (absorb seen reqs) + 1)) := by
  intro reqs
  induction reqs with
  | nil =>
      intro seen pids st2 h
      simp only [runPairs] at h
      obtain ⟨h1, h2⟩ := Prod.mk.injEq _ _ _ _ ▸ Except.ok.inj h
      subst h1
      refine ⟨by rw [← h2]; rfl, by rw [← h2]; rfl, rfl, ?_⟩
      intro i k hk
      cases hk
  | cons kb rest ih =>
      intro seen pids st2 h
      obtain ⟨f, b⟩ := kb
      by_cases hmem : (f, b) ∈ seen
      · rw [show absorb seen ((f, b) :: rest) = absorb seen rest by
          simp [absorb, hmem]]
        simp only [runPairs, pair_for_indices_seen ceiling f b seen hmem] at h
        cases hrec : runPairs ceiling rest ⟨idealCache seen 1, seen.length + 1⟩ with
        | error e => rw [hrec] at h; cases h
        | ok v =>
            obtain ⟨pids1, st1⟩ := v
            rw [hrec] at h
            obtain ⟨h1, h2⟩ := Prod.mk.injEq _ _ _ _ ▸ Except.ok.inj h
            subst h1
            obtain ⟨g1, g2, g3, g4⟩ := ih seen pids1 st1 hrec
            refine ⟨by rw [← h2]; exact g1, by rw [← h2]; exact g2,
              by simp [g3], ?_⟩
            intro i k hk
            match i with
            | 0 =>
                cases hk
                show some (keyIdx (f, b) seen + 1) = _
                rw [keyIdx_absorb_of_mem rest seen _ hmem]
            | i + 1 =>
                exact g4 i k hk
      · by_cases hcap : seen.length + 1 < ceiling
        · rw [show absorb seen ((f, b) :: rest) = absorb (seen ++ [(f, b)]) rest by
            simp [absorb, hmem]]
          simp only [runPairs, pair_for_indices_new ceiling f b seen hmem hcap] at h
          cases hrec : runPairs ceiling rest
              ⟨idealCache (seen ++ [(f, b)]) 1, (seen ++ [(f, b)]).length + 1⟩ with
          | error e => rw [hrec] at h; cases h
          | ok v =>
              obtain ⟨pids1, st1⟩ := v
              rw [hrec] at h
              obtain ⟨h1, h2⟩ := Prod.mk.injEq _ _ _ _ ▸ Except.ok.inj h
              subst h1
              obtain ⟨g1, g2, g3, g4⟩ := ih (seen ++ [(f, b)]) pids1 st1 hrec
              refine ⟨by rw [← h2]; exact g1, by rw [← h2]; exact g2,
                by simp [g3], ?_⟩
              intro i k hk
              match i with
              | 0 =>
                  cases hk
                  show some (seen.length + 1) = _
                  rw [keyIdx_absorb_of_mem rest (seen ++ [(f, b)]) _
                    (List.mem_append.2 (Or.inr (List.mem_singleton.2 rfl)))]
                  rw [keyIdx_append_of_not_mem _ _ _ hmem]
                  simp [keyIdx]
              | i + 1 =>
                  exact g4 i k hk
        · simp only [runPairs, pair_for_indices,
            lookup_idealCache_of_not_mem _ _ _ hmem, if_neg hcap] at h
          cases h

/-- Claim C1: over any request sequence that completes, pair allocation is
idempotent and collision-free — the final cache binds exactly the distinct
tuples in first-seen order to ids 1, 2, 3, …, the counter sits one past the
last id, each request receives the id of its tuple's first appearance (so
equal tuples get equal ids and distinct tuples get distinct ids), and a
binding, once made, survives any longer run unchanged (no id is reused or
reassigned). -/
theorem C1_pair_allocation (ceiling : Nat) (reqs : List (Nat × Nat))
    (pids : List Nat) (st : PairState)
    (h : runPairs ceiling reqs initPairState = .ok (pids, st)) :
    st.cache = idealCache (firstSeen reqs) 1 ∧
    st.next = (firstSeen reqs).length + 1 ∧
    pids.length = reqs.length ∧
    (∀ (i : Nat) (k : Nat × Nat), reqs.get? i = some k →
      pids.get? i = some (keyIdx k (firstSeen reqs) + 1)) ∧
    (∀ (i j : Nat) (ki kj : Nat × Nat), reqs.get? i = some ki →
      reqs.get? j = some kj → ki = kj → pids.get? i = pids.get? j) ∧
    (∀ (i j : Nat) (ki kj : Nat × Nat), reqs.get? i = some ki →
      reqs.get? j = some kj → ki ≠ kj → pids.get? i ≠ pids.get? j) ∧
    (∀ (more : List (Nat × Nat)) (pids2 : List Nat) (st2 : PairState),
      runPairs ceiling (reqs ++ more) initPairState = .ok (pids2, st2) →
      ∀ (k : Nat × Nat) (id : Nat),
        alist_lookup st.cache k = some id → alist_lookup st2.cache k = some id) := by
  have hinit : initPairState =
      (⟨idealCache [] 1, ([] : List (Nat × Nat)).length + 1⟩ : PairState) := rfl
  rw [hinit] at h
  obtain ⟨g1, g2, g3, g4⟩ := runPairs_invariant ceiling reqs [] pids st h
  have hfs : absorb [] reqs = firstSeen reqs := rfl
  rw [hfs] at g1 g2
  simp only [hfs] at g4
  refine ⟨g1, g2, g3, g4, ?_, ?_, ?_⟩
  · intro i j ki kj hi hj hk
    rw [g4 i ki hi, g4 j kj hj, hk]
  · intro i j ki kj hi hj hk
    rw [g4 i ki hi, g4 j kj hj]
    intro heq
    have hmi : ki ∈ firstSeen reqs :=
      mem_absorb_req reqs [] ki (List.get?_mem hi)
    have hmj : kj ∈ firstSeen reqs :=
      mem_absorb_req reqs [] kj (List.get?_mem hj)
    have hidx : keyIdx ki (firstSeen reqs) = keyIdx kj (firstSeen reqs) := by
      have := Option.some.inj heq
      omega
    exact hk (keyIdx_inj ki kj (firstSeen reqs) hmi hmj hidx)
  · intro more pids2 st2 h2 k id hid
    rw [hinit] at h2
    obtain ⟨m1, _, _, _⟩ := runPairs_invariant ceiling (reqs ++ more) [] pids2 st2 h2
    have hfs2 : absorb ([] : List (Nat × Nat)) (reqs ++ more) =
        absorb (firstSeen reqs) more := by
      rw [absorb_append]
      rfl
    rw [hfs2] at m1
    rw [g1] at hid
    by_cases hk : k ∈ firstSeen reqs
    · rw [lookup_idealCache_of_mem _ _ _ hk] at hid
      rw [m1, lookup_idealCache_of_mem _ _ _ (mem_absorb_left more _ k hk),
        keyIdx_absorb_of_mem more _ k hk]
      exact hid
    · rw [lookup_idealCache_of_not_mem _ _ _ hk] at hid
      cases hid

/-- Witness for C1: the run `[(1,2), (3,4), (1,2)]` under ceiling 10 yields
ids `[1, 2, 1]` and the ideal two-entry cache. -/
theorem C1_witness :
    runPairs 10 [(1,2), (3,4), (1,2)] initPairState =
      .ok ([1, 2, 1], PairState.mk [((1,2), 1), ((3,4), 2)] 3) ∧
    (PairState.mk [((1,2), 1), ((3,4), 2)] 3).cache =
      idealCache (firstSeen [(1,2), (3,4), (1,2)]) 1 ∧
    (PairState.mk [((1,2), 1), ((3,4), 2)] 3).next =
      (firstSeen [(1,2), (3,4), (1,2)]).length + 1 := by
  have h : runPairs 10 [(1,2), (3,4), (1,2)] initPairState =
      .ok ([1, 2, 1], PairState.mk [((1,2), 1), ((3,4), 2)] 3) := rfl
  have hc := C1_pair_allocation 10 [(1,2), (3,4), (1,2)] [1, 2, 1]
    (PairState.mk [((1,2), 1), ((3,4), 2)] 3) h
  exact ⟨h, hc.1, hc.2.1⟩

end PiGames
